import Mathlib

/-!
Verification of the funnel / cohort analysis engine
(`src/analysis/funnel_analyzer.py`, `src/analysis/cohort_analysis.py`).

The event table is embedded as a `List Row`.  A pandas timestamp is
abstracted as a pair of the absolute calendar-month index (what
`dt.to_period('M')` extracts) and an instant within that month; datetime
order is the lexicographic order on that pair, and period subtraction is
subtraction of month indices.  Python `float` division is embedded as exact
division on `ℚ`; a Python `ZeroDivisionError` is embedded as `none` /
an error outcome (fallible code returns `Option`).
-/

/-- Instant type: `month` is the absolute calendar-month index
(`year*12 + month`, what `dt.to_period('M')` yields) and `sub` the
instant within that month (day, time).  Datetime order is lexicographic. -/
structure Timestamp where
  month : Nat
  sub : Nat
deriving DecidableEq, Repr

/-- Datetime comparison (lexicographic on month index, then within-month). -/
def tsLeB (a b : Timestamp) : Bool :=
  decide (a.month < b.month) || (decide (a.month = b.month) && decide (a.sub ≤ b.sub))

/-- Binary minimum of two timestamps, as used by a running `min`. -/
def tsMin (a b : Timestamp) : Timestamp :=
  if tsLeB a b then a else b

/-- One record of the event log: `{user_id, event, timestamp, source, device}`. -/
structure Row where
  user : Nat
  event : String
  ts : Timestamp
  source : String
  device : String
deriving DecidableEq, Repr

/-- Set of distinct users who produced the given event anywhere in the log:
`set(self.data[self.data[event_col] == step][user_col])`
(funnel_analyzer.py lines 60 and 65). -/
def stepUsers (data : List Row) (step : String) : Finset Nat :=
  ((data.filter fun r => r.event == step).map Row.user).toFinset

/-- One entry of the in-loop `funnel_results` list (funnel_analyzer.py
lines 77-83): the four reported fields plus the `users` set. -/
structure StepAcc where
  step : String
  count : Nat
  conversion_rate : ℚ
  step_conversion : ℚ
  users : Finset Nat
deriving DecidableEq

/-- One row of the returned `funnel_data` table (funnel_analyzer.py
lines 85-93): the `users` column is dropped. -/
structure StepRow where
  step : String
  count : Nat
  conversion_rate : ℚ
  step_conversion : ℚ
deriving DecidableEq, Repr

/-- Projection from a `funnel_results` entry to a `funnel_data` row. -/
def StepAcc.toRow (a : StepAcc) : StepRow :=
  ⟨a.step, a.count, a.conversion_rate, a.step_conversion⟩

/-- Body of loop iteration `i ≥ 1` in `create_funnel_analysis`
(funnel_analyzer.py lines 62-83): intersect the previous user set with the
current step's users, divide the new count by `funnel_results[0]['count']`
(`count0`) for `conversion_rate` and by `funnel_results[i-1]['count']` for
`step_conversion`. -/
def nextAcc (data : List Row) (count0 : Nat) (prev : StepAcc) (s : String) : StepAcc :=
  ⟨s, (prev.users ∩ stepUsers data s).card,
    ((prev.users ∩ stepUsers data s).card : ℚ) / (count0 : ℚ) * 100,
    ((prev.users ∩ stepUsers data s).card : ℚ) / (prev.count : ℚ) * 100,
    prev.users ∩ stepUsers data s⟩

/-- Iterations `i ≥ 1` of the loop in `create_funnel_analysis`.  A zero
divisor in either rate is Python's `ZeroDivisionError`, embedded as `none`
(the source has no guard, funnel_analyzer.py lines 74-75). -/
def funnelRest (data : List Row) (count0 : Nat) (prev : StepAcc) :
    List String → Option (List StepAcc)
  | [] => some []
  | s :: rest =>
    if count0 = 0 ∨ prev.count = 0 then none
    else
      (funnelRest data count0 (nextAcc data count0 prev s) rest).map
        (nextAcc data count0 prev s :: ·)

/-- The full `funnel_results` list built by the loop of
`create_funnel_analysis` (funnel_analyzer.py lines 55-83).  Step 0 gets
`count = |stepUsers|` and both rates `100.0`; later steps are `funnelRest`. -/
def funnelResults (data : List Row) : List String → Option (List StepAcc)
  | [] => some []
  | s :: rest =>
    (funnelRest data (stepUsers data s).card
        ⟨s, (stepUsers data s).card, 100, 100, stepUsers data s⟩ rest).map
      (⟨s, (stepUsers data s).card, 100, 100, stepUsers data s⟩ :: ·)

/-- The returned `funnel_data` table (funnel_analyzer.py lines 85-95):
`funnel_results` with the `users` column dropped; `none` when the loop
raised `ZeroDivisionError`. -/
def funnelTable (data : List Row) (steps : List String) : Option (List StepRow) :=
  (funnelResults data steps).map (List.map StepAcc.toRow)

/-- The chain of qualified-user sets for the steps after step 0: each set is
the intersection of the previous one with the current step's users
(funnel_analyzer.py line 66, `prev_users.intersection(current_step_users)`). -/
def qualChain (data : List Row) (prev : Finset Nat) : List String → List (Finset Nat)
  | [] => []
  | s :: rest => (prev ∩ stepUsers data s) :: qualChain data (prev ∩ stepUsers data s) rest

/-- The qualified-user set at every step of the funnel, step 0 included
(the `users_at_step` values of funnel_analyzer.py lines 60 and 66). -/
def qualifiedSets (data : List Row) : List String → List (Finset Nat)
  | [] => []
  | s :: rest => stepUsers data s :: qualChain data (stepUsers data s) rest

/-- The mutable analyzer object: `self.data` and `self.funnel_data`
(funnel_analyzer.py lines 15-16). -/
structure FunnelAnalyzer where
  data : Option (List Row)
  funnel_data : Option (List StepRow)
deriving DecidableEq, Repr

/-- Outcome of a call to the `create_funnel_analysis` method: `noData`
models printing "No data available for analysis" and returning `None`
(lines 51-53); `zeroDivisionError` models an uncaught `ZeroDivisionError`
escaping the call; `ok` models returning the dataframe. -/
inductive FunnelOutcome where
  | noData : FunnelOutcome
  | zeroDivisionError : FunnelOutcome
  | ok : List StepRow → FunnelOutcome
deriving DecidableEq, Repr

/-- The method `FunnelAnalyzer.create_funnel_analysis` (funnel_analyzer.py
lines 49-95) as a state transformer: it returns the outcome and the new
object state.  `self.funnel_data` is assigned only after the loop finishes
(line 85), so on `noData` and on `ZeroDivisionError` the state is unchanged. -/
def FunnelAnalyzer.create_funnel_analysis (a : FunnelAnalyzer) (steps : List String) :
    FunnelOutcome × FunnelAnalyzer :=
  match a.data with
  | none => (FunnelOutcome.noData, a)
  | some d =>
    match funnelTable d steps with
    | none => (FunnelOutcome.zeroDivisionError, a)
    | some t => (FunnelOutcome.ok t, { a with funnel_data := some t })

/-- Row comparison used by
`self.data.sort_values([user_col, timestamp_col])` (funnel_analyzer.py
line 41): by user id, ties broken by timestamp. -/
def rowLeB (a b : Row) : Bool :=
  decide (a.user < b.user) || (decide (a.user = b.user) && tsLeB a.ts b.ts)

/-- The same row comparison as a decidable relation. -/
def rowLe (a b : Row) : Prop := rowLeB a b = true

instance : DecidableRel rowLe :=
  fun a b => inferInstanceAs (Decidable (rowLeB a b = true))

instance : IsTotal Row rowLe :=
  ⟨by
    intro a b
    simp only [rowLe, rowLeB, tsLeB, Bool.or_eq_true, Bool.and_eq_true, decide_eq_true_eq]
    omega⟩

instance : IsTrans Row rowLe :=
  ⟨by
    intro a b c
    simp only [rowLe, rowLeB, tsLeB, Bool.or_eq_true, Bool.and_eq_true, decide_eq_true_eq]
    omega⟩

/-- Scan keeping the first occurrence of each `(user_id, event)` key, the
behaviour of `drop_duplicates(subset=[user_col, event_col])` with the
default `keep='first'` (funnel_analyzer.py line 44); `seen` is the set of
keys already emitted. -/
def dropDupKeepFirst : List Row → List (Nat × String) → List Row
  | [], _ => []
  | r :: rs, seen =>
    if (r.user, r.event) ∈ seen then dropDupKeepFirst rs seen
    else r :: dropDupKeepFirst rs ((r.user, r.event) :: seen)

/-- The method `preprocess_data` (funnel_analyzer.py lines 31-47): sort the
table by `(user_id, timestamp)`, then drop duplicate `(user_id, event)`
pairs keeping the first occurrence.  (The timestamp-parsing step is the
identity here since rows already carry `Timestamp` values.) -/
def preprocess_data (data : List Row) : List Row :=
  dropDupKeepFirst (List.insertionSort rowLe data) []

/-- Running minimum of a list of timestamps, `none` on the empty list
(the `groupby(user_col)[timestamp_col].min()` of cohort_analysis.py
line 19 applied to one user's timestamps). -/
def minTsList : List Timestamp → Option Timestamp
  | [] => none
  | t :: ts => some (ts.foldl tsMin t)

/-- All records of one user (one group of `groupby(user_col)`). -/
def userRows (data : List Row) (u : Nat) : List Row :=
  data.filter fun r => r.user == u

/-- The `cohort_period` of a user: the calendar month of the minimum
timestamp across all that user's events (cohort_analysis.py lines 19-21),
`none` when the user has no record. -/
def cohortPeriodOf (data : List Row) (u : Nat) : Option Nat :=
  (minTsList ((userRows data u).map Row.ts)).map Timestamp.month

/-- The `period_number` of a record: event month minus the cohort month of
the record's user, as pandas period subtraction yields a signed month count
(cohort_analysis.py lines 27-30). -/
def periodNum (data : List Row) (r : Row) : Option Int :=
  (cohortPeriodOf data r.user).map fun c => (r.ts.month : Int) - (c : Int)

/-- The distinct users behind one cell of the pivoted cohort table: users
with a record whose cohort month is `c` and period number is `p`
(the `groupby(['cohort_period', 'period_number'])[user_col].nunique()`
of cohort_analysis.py line 33). -/
def cohortUsersAt (data : List Row) (c : Nat) (p : Int) : Finset Nat :=
  ((data.filter fun r =>
      cohortPeriodOf data r.user == some c && periodNum data r == some p).map
    Row.user).toFinset

/-- One cell of the cohort table: the distinct-user count at
`(cohort month c, period p)`; an absent (NaN) pivot cell is an empty group,
value 0 (cohort_analysis.py lines 33-36). -/
def cohortCell (data : List Row) (c : Nat) (p : Int) : Nat :=
  (cohortUsersAt data c p).card

/-- `cohort_sizes = cohort_table.iloc[:, 0]` (cohort_analysis.py line 39):
the first pivot column is period number 0, the smallest period number that
occurs (every user's first event is in their cohort month). -/
def cohort_sizes (data : List Row) (c : Nat) : Nat :=
  cohortCell data c 0

/-- One cell of `retention_table = cohort_table.divide(cohort_sizes, axis=0)`
(cohort_analysis.py line 40): the cohort cell divided by its row's
period-0 value. -/
def retentionCell (data : List Row) (c : Nat) (p : Int) : ℚ :=
  (cohortCell data c p : ℚ) / (cohort_sizes data c : ℚ)

/-- The distinct users of the whole table. -/
def allUsers (data : List Row) : Finset Nat :=
  (data.map Row.user).toFinset

/-- The cohort months that occur, i.e. the row labels of the pivoted
cohort table. -/
def cohortMonths (data : List Row) : Finset Nat :=
  (data.filterMap fun r => cohortPeriodOf data r.user).toFinset

/-- C1.  The claim says `create_funnel_analysis` returns all-zero rows with
`conversion_rate = 0` when nobody produced `steps[0]`.  The code has no such
guard: with an empty event log and two steps, `conversion_rate =
(total_users / funnel_results[0]['count']) * 100` divides 0 by 0 at step
index 1 and the call raises `ZeroDivisionError` instead of returning. -/
theorem c1_div_by_zero_fault :
    FunnelAnalyzer.create_funnel_analysis ⟨some [], none⟩ ["page_view", "signup"] =
      (FunnelOutcome.zeroDivisionError, ⟨some [], none⟩) := by
  decide

/-- C2.  The claim says a step name absent from the log never raises and all
later steps get count 0.  In the code, the step after the absent one computes
`step_conversion = (0 / funnel_results[i-1]['count']) * 100` with a zero
previous count, so the call raises `ZeroDivisionError`: with one event
`(user 1, "a")` and steps `["a", "x", "b"]`, step "x" has count 0 and the
loop fails at step "b". -/
theorem c2_unknown_step_raises :
    FunnelAnalyzer.create_funnel_analysis ⟨some [⟨1, "a", ⟨0, 0⟩, "", ""⟩], none⟩
        ["a", "x", "b"] =
      (FunnelOutcome.zeroDivisionError, ⟨some [⟨1, "a", ⟨0, 0⟩, "", ""⟩], none⟩) := by
  decide

/-- C10.  Calling `create_funnel_analysis` with no data loaded
(`self.data is None`) reports a message and returns `None` for every steps
argument, raises nothing, and leaves the stored `funnel_data` unchanged. -/
theorem c10_no_data_returns_none (a : FunnelAnalyzer) (steps : List String)
    (h : a.data = none) :
    FunnelAnalyzer.create_funnel_analysis a steps = (FunnelOutcome.noData, a) := by
  unfold FunnelAnalyzer.create_funnel_analysis
  rw [h]

/-- Helper: along a successful run of the tail loop, adjacent counts are
non-increasing, because each user set is an intersection with the previous
one and every stored count is the cardinality of its `users` field. -/
theorem funnelRest_chain (data : List Row) (count0 : Nat) :
    ∀ (steps : List String) (prev : StepAcc) (accs : List StepAcc),
      prev.count = prev.users.card →
      funnelRest data count0 prev steps = some accs →
      List.Chain' (fun a b : StepAcc => b.count ≤ a.count) (prev :: accs) := by
  intro steps
  induction steps with
  | nil =>
    intro prev accs _ h
    simp only [funnelRest, Option.some.injEq] at h
    subst h
    exact List.chain'_singleton _
  | cons s rest ih =>
    intro prev accs hp h
    simp only [funnelRest] at h
    split at h
    · exact absurd h (by simp)
    · rw [Option.map_eq_some'] at h
      obtain ⟨l, hl, rfl⟩ := h
      have hnext : (nextAcc data count0 prev s).count = (nextAcc data count0 prev s).users.card :=
        rfl
      have hle : (nextAcc data count0 prev s).count ≤ prev.count := by
        rw [hnext, hp]
        exact Finset.card_le_card Finset.inter_subset_left
      exact List.chain'_cons.mpr ⟨hle, ih _ l hnext hl⟩

/-- Helper: along a successful run of the whole loop, adjacent counts are
non-increasing. -/
theorem funnelResults_chain (data : List Row) (steps : List String) (accs : List StepAcc)
    (h : funnelResults data steps = some accs) :
    List.Chain' (fun a b : StepAcc => b.count ≤ a.count) accs := by
  cases steps with
  | nil =>
    simp only [funnelResults, Option.some.injEq] at h
    subst h
    exact List.chain'_nil
  | cons s rest =>
    simp only [funnelResults] at h
    rw [Option.map_eq_some'] at h
    obtain ⟨l, hl, rfl⟩ := h
    exact funnelRest_chain data _ rest _ l rfl hl

/-- C3.  Whenever `create_funnel_analysis` returns a table, its counts are
monotonically non-increasing across steps and non-negative:
`count[i+1] ≤ count[i]` and `0 ≤ count[i+1]` for every adjacent pair. -/
theorem c3_counts_monotone (data : List Row) (steps : List String) (rows : List StepRow)
    (h : funnelTable data steps = some rows) (i : Nat) (hi : i + 1 < rows.length) :
    (rows.getD (i + 1) ⟨"", 0, 0, 0⟩).count ≤ (rows.getD i ⟨"", 0, 0, 0⟩).count ∧
      0 ≤ (rows.getD (i + 1) ⟨"", 0, 0, 0⟩).count := by
  refine ⟨?_, Nat.zero_le _⟩
  rw [funnelTable, Option.map_eq_some'] at h
  obtain ⟨accs, hacc, rfl⟩ := h
  have hchain : List.Chain' (fun a b : StepRow => b.count ≤ a.count)
      (accs.map StepAcc.toRow) := by
    rw [List.chain'_map]
    exact funnelResults_chain data steps accs hacc
  rw [List.chain'_iff_get] at hchain
  have hstep := hchain i (by omega)
  rw [List.getD_eq_getElem _ _ hi, List.getD_eq_getElem _ _ (by omega : i < (accs.map StepAcc.toRow).length)]
  simpa [List.get_eq_getElem] using hstep

/-- C3 witness: a two-event log and a two-step funnel where the table is
returned and the adjacent counts satisfy the bounds. -/
theorem c3_counts_monotone_witness :
    ∃ rows : List StepRow,
      funnelTable [⟨1, "a", ⟨0, 0⟩, "", ""⟩, ⟨1, "b", ⟨0, 1⟩, "", ""⟩] ["a", "b"] = some rows ∧
      0 + 1 < rows.length ∧
      (rows.getD (0 + 1) ⟨"", 0, 0, 0⟩).count ≤ (rows.getD 0 ⟨"", 0, 0, 0⟩).count :=
  ⟨(funnelTable [⟨1, "a", ⟨0, 0⟩, "", ""⟩, ⟨1, "b", ⟨0, 1⟩, "", ""⟩] ["a", "b"]).get (by decide),
    (Option.some_get (by decide)).symm, by decide,
    (c3_counts_monotone [⟨1, "a", ⟨0, 0⟩, "", ""⟩, ⟨1, "b", ⟨0, 1⟩, "", ""⟩] ["a", "b"]
      _ (Option.some_get (by decide)).symm 0 (by decide)).1⟩

/-- C10 witness: a concrete analyzer with no data and a stored funnel table. -/
theorem c10_no_data_returns_none_witness :
    (FunnelAnalyzer.data ⟨none, some [⟨"a", 1, 100, 100⟩]⟩ = none) ∧
      FunnelAnalyzer.create_funnel_analysis ⟨none, some [⟨"a", 1, 100, 100⟩]⟩ ["a", "b"] =
        (FunnelOutcome.noData, ⟨none, some [⟨"a", 1, 100, 100⟩]⟩) :=
  ⟨rfl, c10_no_data_returns_none ⟨none, some [⟨"a", 1, 100, 100⟩]⟩ ["a", "b"] rfl⟩

/-- Helper: membership in a step's user set means having produced that
event somewhere in the log. -/
theorem mem_stepUsers (data : List Row) (s : String) (u : Nat) :
    u ∈ stepUsers data s ↔ ∃ r ∈ data, r.user = u ∧ r.event = s := by
  simp only [stepUsers, List.mem_toFinset, List.mem_map, List.mem_filter, beq_iff_eq]
  constructor
  · rintro ⟨r, ⟨hr, he⟩, hu⟩
    exact ⟨r, hr, hu, he⟩
  · rintro ⟨r, hr, hu, he⟩
    exact ⟨r, ⟨hr, he⟩, hu⟩

/-- Helper: membership at position `i` of the tail chain requires membership
in the carried-in set and in every step set up to `i`. -/
theorem qualChain_mem (data : List Row) :
    ∀ (steps : List String) (prev : Finset Nat) (i : Nat), i < steps.length →
      ∀ u, u ∈ (qualChain data prev steps).getD i ∅ ↔
        u ∈ prev ∧ ∀ j, j ≤ i → u ∈ stepUsers data (steps.getD j "") := by
  intro steps
  induction steps with
  | nil =>
    intro prev i hi
    exact absurd hi (by simp)
  | cons s rest ih =>
    intro prev i hi u
    cases i with
    | zero =>
      simp only [qualChain, List.getD_cons_zero, Finset.mem_inter]
      constructor
      · rintro ⟨hp, hs⟩
        refine ⟨hp, fun j hj => ?_⟩
        interval_cases j
        simpa using hs
      · rintro ⟨hp, hall⟩
        exact ⟨hp, by simpa using hall 0 (Nat.le_refl 0)⟩
    | succ k =>
      simp only [qualChain, List.getD_cons_succ]
      rw [ih (prev ∩ stepUsers data s) k (by simpa using Nat.lt_of_succ_lt_succ hi) u,
        Finset.mem_inter]
      constructor
      · rintro ⟨⟨hp, hs⟩, hall⟩
        refine ⟨hp, fun j hj => ?_⟩
        cases j with
        | zero => simpa using hs
        | succ j' => simpa using hall j' (Nat.le_of_succ_le_succ hj)
      · rintro ⟨hp, hall⟩
        exact ⟨⟨hp, by simpa using hall 0 (Nat.zero_le _)⟩,
          fun j hj => by simpa using hall (j + 1) (Nat.succ_le_succ hj)⟩

/-- Helper: a user is in the qualified set at step `i` exactly when they are
in the step set of every step `j ≤ i`. -/
theorem qualifiedSets_mem (data : List Row) (steps : List String) (i : Nat)
    (hi : i < steps.length) (u : Nat) :
    u ∈ (qualifiedSets data steps).getD i ∅ ↔
      ∀ j, j ≤ i → u ∈ stepUsers data (steps.getD j "") := by
  cases steps with
  | nil => exact absurd hi (by simp)
  | cons s rest =>
    cases i with
    | zero =>
      simp only [qualifiedSets, List.getD_cons_zero]
      constructor
      · intro hs j hj
        interval_cases j
        simpa using hs
      · intro hall
        simpa using hall 0 (Nat.le_refl 0)
    | succ k =>
      simp only [qualifiedSets, List.getD_cons_succ]
      rw [qualChain_mem data rest (stepUsers data s) k (Nat.lt_of_succ_lt_succ hi) u]
      constructor
      · rintro ⟨hp, hall⟩
        intro j hj
        cases j with
        | zero => simpa using hp
        | succ j' => simpa using hall j' (Nat.le_of_succ_le_succ hj)
      · intro hall
        exact ⟨by simpa using hall 0 (Nat.zero_le _),
          fun j hj => by simpa using hall (j + 1) (Nat.succ_le_succ hj)⟩

/-- Helper: on a successful run, the `users` column of the tail loop's
results is exactly the intersection chain seeded with `prev.users`. -/
theorem funnelRest_users (data : List Row) (count0 : Nat) :
    ∀ (steps : List String) (prev : StepAcc) (accs : List StepAcc),
      funnelRest data count0 prev steps = some accs →
      accs.map StepAcc.users = qualChain data prev.users steps := by
  intro steps
  induction steps with
  | nil =>
    intro prev accs h
    simp only [funnelRest, Option.some.injEq] at h
    subst h
    simp [qualChain]
  | cons s rest ih =>
    intro prev accs h
    simp only [funnelRest] at h
    split at h
    · exact absurd h (by simp)
    · rw [Option.map_eq_some'] at h
      obtain ⟨l, hl, rfl⟩ := h
      have hrec := ih (nextAcc data count0 prev s) l hl
      simp only [nextAcc] at hrec
      simp only [List.map_cons, qualChain, nextAcc]
      rw [hrec]

/-- Helper: on a successful run, the `users` column of `funnel_results` is
exactly the qualified-set chain. -/
theorem funnelResults_users (data : List Row) (steps : List String) (accs : List StepAcc)
    (h : funnelResults data steps = some accs) :
    accs.map StepAcc.users = qualifiedSets data steps := by
  cases steps with
  | nil =>
    simp only [funnelResults, Option.some.injEq] at h
    subst h
    simp [qualifiedSets]
  | cons s rest =>
    simp only [funnelResults] at h
    rw [Option.map_eq_some'] at h
    obtain ⟨l, hl, rfl⟩ := h
    simp only [List.map_cons, qualifiedSets]
    have hrec := funnelRest_users data _ rest _ l hl
    rw [hrec]

/-- C4.  For every step `i+1`, the qualified-user set is the intersection of
the users who produced `steps[i+1]` anywhere in the log with the qualified
set at step `i`; a user is in the set at step `i+1` exactly when they
produced every one of `steps[0..i+1]` at least once (timestamps are never
consulted); and these sets are exactly the `users` column the loop stores. -/
theorem c4_step_sets_are_intersections (data : List Row) (steps : List String) (i : Nat)
    (h : i + 1 < steps.length) :
    (qualifiedSets data steps).getD (i + 1) ∅ =
        (qualifiedSets data steps).getD i ∅ ∩ stepUsers data (steps.getD (i + 1) "") ∧
      (∀ u, u ∈ (qualifiedSets data steps).getD (i + 1) ∅ ↔
        ∀ j, j ≤ i + 1 → ∃ r ∈ data, r.user = u ∧ r.event = steps.getD j "") ∧
      ∀ accs, funnelResults data steps = some accs →
        accs.map StepAcc.users = qualifiedSets data steps := by
  refine ⟨?_, ?_, fun accs ha => funnelResults_users data steps accs ha⟩
  · ext u
    rw [Finset.mem_inter, qualifiedSets_mem data steps (i + 1) h u,
      qualifiedSets_mem data steps i (by omega) u]
    constructor
    · intro hall
      exact ⟨fun j hj => hall j (by omega), hall (i + 1) (Nat.le_refl _)⟩
    · rintro ⟨hall, hlast⟩ j hj
      rcases Nat.lt_or_ge j (i + 1) with hj' | hj'
      · exact hall j (by omega)
      · have hje : j = i + 1 := by omega
        subst hje
        exact hlast
  · intro u
    rw [qualifiedSets_mem data steps (i + 1) h u]
    constructor
    · intro hall j hj
      exact (mem_stepUsers data _ u).mp (hall j hj)
    · intro hall j hj
      exact (mem_stepUsers data _ u).mpr (hall j hj)

/-- C4 witness: with the two-event log of user 1 and steps `["a", "b"]`, the
qualified set at step 1 is the intersection of the step-0 set with the users
of "b". -/
theorem c4_step_sets_are_intersections_witness :
    (qualifiedSets [⟨1, "a", ⟨0, 0⟩, "", ""⟩, ⟨1, "b", ⟨0, 1⟩, "", ""⟩] ["a", "b"]).getD
        (0 + 1) ∅ =
      (qualifiedSets [⟨1, "a", ⟨0, 0⟩, "", ""⟩, ⟨1, "b", ⟨0, 1⟩, "", ""⟩] ["a", "b"]).getD 0 ∅ ∩
        stepUsers [⟨1, "a", ⟨0, 0⟩, "", ""⟩, ⟨1, "b", ⟨0, 1⟩, "", ""⟩] (["a", "b"].getD (0 + 1) "") :=
  (c4_step_sets_are_intersections [⟨1, "a", ⟨0, 0⟩, "", ""⟩, ⟨1, "b", ⟨0, 1⟩, "", ""⟩]
    ["a", "b"] 0 (by decide)).1

/-- Helper: the row order used for sorting is reflexive. -/
theorem rowLeB_refl (r : Row) : rowLeB r r = true := by
  simp [rowLeB, tsLeB]

/-- Helper: the dedup scan only keeps rows of its input. -/
theorem dropDup_subset :
    ∀ (l : List Row) (seen : List (Nat × String)) (r : Row),
      r ∈ dropDupKeepFirst l seen → r ∈ l := by
  intro l
  induction l with
  | nil =>
    intro seen r h
    simp [dropDupKeepFirst] at h
  | cons x xs ih =>
    intro seen r h
    simp only [dropDupKeepFirst] at h
    split at h
    · exact List.mem_cons_of_mem _ (ih _ r h)
    · rcases List.mem_cons.mp h with rfl | h'
      · exact List.mem_cons_self _ _
      · exact List.mem_cons_of_mem _ (ih _ r h')

/-- Helper: keys of rows kept by the dedup scan are never in `seen`. -/
theorem dropDup_key_not_seen :
    ∀ (l : List Row) (seen : List (Nat × String)) (r : Row),
      r ∈ dropDupKeepFirst l seen → (r.user, r.event) ∉ seen := by
  intro l
  induction l with
  | nil =>
    intro seen r h
    simp [dropDupKeepFirst] at h
  | cons x xs ih =>
    intro seen r h
    simp only [dropDupKeepFirst] at h
    split at h
    · exact ih _ r h
    · rename_i hns
      rcases List.mem_cons.mp h with rfl | h'
      · exact hns
      · have hni := ih _ r h'
        intro hc
        exact hni (List.mem_cons_of_mem _ hc)

/-- Helper: the dedup scan emits pairwise-distinct `(user, event)` keys. -/
theorem dropDup_keys_distinct :
    ∀ (l : List Row) (seen : List (Nat × String)),
      List.Pairwise (fun a b : Row => (a.user, a.event) ≠ (b.user, b.event))
        (dropDupKeepFirst l seen) := by
  intro l
  induction l with
  | nil =>
    intro seen
    simp [dropDupKeepFirst]
  | cons x xs ih =>
    intro seen
    simp only [dropDupKeepFirst]
    split
    · exact ih _
    · refine List.Pairwise.cons ?_ (ih _)
      intro b hb
      have hni := dropDup_key_not_seen xs _ b hb
      intro hc
      exact hni (hc ▸ List.mem_cons_self _ _)

/-- Helper: on a sorted list, every row the dedup scan keeps is `rowLe` every
row of the list with the same `(user, event)` key (the kept row is the first,
hence minimal, occurrence of its key). -/
theorem dropDup_min_ts :
    ∀ (l : List Row) (seen : List (Nat × String)), List.Pairwise rowLe l →
      ∀ r ∈ dropDupKeepFirst l seen, ∀ r' ∈ l,
        (r'.user, r'.event) = (r.user, r.event) → rowLe r r' := by
  intro l
  induction l with
  | nil =>
    intro seen _ r h
    simp [dropDupKeepFirst] at h
  | cons x xs ih =>
    intro seen hp r hr r' hr' hk
    obtain ⟨hx, hxs⟩ := List.pairwise_cons.mp hp
    simp only [dropDupKeepFirst] at hr
    split at hr
    · rename_i hseen
      rcases List.mem_cons.mp hr' with rfl | h'
      · have hnot := dropDup_key_not_seen xs seen r hr
        exact absurd (hk ▸ hseen) hnot
      · exact ih seen hxs r hr r' h' hk
    · rcases List.mem_cons.mp hr with rfl | hrtail
      · rcases List.mem_cons.mp hr' with rfl | h'
        · exact rowLeB_refl _
        · exact hx r' h'
      · rcases List.mem_cons.mp hr' with rfl | h'
        · have hnot := dropDup_key_not_seen xs _ r hrtail
          exact absurd (hk ▸ List.mem_cons_self _ _) hnot
        · exact ih _ hxs r hrtail r' h' hk

/-- Helper: a list with pairwise-distinct keys has at most one row matching
any given `(user, event)` key. -/
theorem pairwise_filter_le_one :
    ∀ (l : List Row),
      List.Pairwise (fun a b : Row => (a.user, a.event) ≠ (b.user, b.event)) l →
      ∀ (u : Nat) (e : String),
        (l.filter fun r => r.user == u && r.event == e).length ≤ 1 := by
  intro l
  induction l with
  | nil =>
    intro _ u e
    simp
  | cons x xs ih =>
    intro hp u e
    obtain ⟨hx, hxs⟩ := List.pairwise_cons.mp hp
    by_cases hmatch : (x.user == u && x.event == e) = true
    · rw [List.filter_cons, if_pos hmatch]
      have hempty : (xs.filter fun r => r.user == u && r.event == e) = [] := by
        rw [List.filter_eq_nil_iff]
        intro a ha hpa
        simp only [Bool.and_eq_true, beq_iff_eq] at hmatch hpa
        exact hx a ha (by rw [hmatch.1, hmatch.2, hpa.1, hpa.2])
      rw [hempty]
      simp
    · rw [List.filter_cons, if_neg (by simpa using hmatch)]
      exact ih hxs u e

/-- C8.  After `preprocess_data`, at most one record remains per
`(user_id, event)` pair, every surviving record comes from the input, and
the survivor's timestamp is the earliest among that user's occurrences of
that event. -/
theorem c8_preprocess_dedup (data : List Row) (u : Nat) (e : String) :
    ((preprocess_data data).filter fun r => r.user == u && r.event == e).length ≤ 1 ∧
      ∀ r ∈ preprocess_data data, r ∈ data ∧
        ∀ r' ∈ data, r'.user = r.user → r'.event = r.event → tsLeB r.ts r'.ts = true := by
  have hperm := List.perm_insertionSort rowLe data
  have hsorted : List.Pairwise rowLe (List.insertionSort rowLe data) :=
    List.sorted_insertionSort rowLe data
  constructor
  · simp only [preprocess_data]
    exact pairwise_filter_le_one _ (dropDup_keys_distinct _ []) u e
  · intro r hr
    simp only [preprocess_data] at hr
    have hrs : r ∈ List.insertionSort rowLe data := dropDup_subset _ [] r hr
    refine ⟨hperm.mem_iff.mp hrs, ?_⟩
    intro r' hr' hu he
    have hr's : r' ∈ List.insertionSort rowLe data := hperm.mem_iff.mpr hr'
    have hk : (r'.user, r'.event) = (r.user, r.event) := by rw [hu, he]
    have hle := dropDup_min_ts _ [] hsorted r hr r' hr's hk
    simp only [rowLe, rowLeB, Bool.or_eq_true, Bool.and_eq_true, decide_eq_true_eq] at hle
    rcases hle with hlt | ⟨_, hts⟩
    · exact absurd hlt (by omega)
    · exact hts

/-- C8 witness: user 1 produced "a" twice; the kept record is the one with
the earlier timestamp and it precedes the other occurrence. -/
theorem c8_preprocess_dedup_witness :
    ((preprocess_data [⟨1, "a", ⟨0, 5⟩, "", ""⟩, ⟨1, "a", ⟨0, 3⟩, "", ""⟩]).filter
        fun r => r.user == 1 && r.event == "a").length ≤ 1 ∧
      (⟨1, "a", ⟨0, 3⟩, "", ""⟩ : Row) ∈
        [(⟨1, "a", ⟨0, 5⟩, "", ""⟩ : Row), ⟨1, "a", ⟨0, 3⟩, "", ""⟩] ∧
      tsLeB ⟨0, 3⟩ ⟨0, 5⟩ = true :=
  ⟨(c8_preprocess_dedup [⟨1, "a", ⟨0, 5⟩, "", ""⟩, ⟨1, "a", ⟨0, 3⟩, "", ""⟩] 1 "a").1,
    ((c8_preprocess_dedup [⟨1, "a", ⟨0, 5⟩, "", ""⟩, ⟨1, "a", ⟨0, 3⟩, "", ""⟩] 1 "a").2
      ⟨1, "a", ⟨0, 3⟩, "", ""⟩ (by decide)).1,
    ((c8_preprocess_dedup [⟨1, "a", ⟨0, 5⟩, "", ""⟩, ⟨1, "a", ⟨0, 3⟩, "", ""⟩] 1 "a").2
      ⟨1, "a", ⟨0, 3⟩, "", ""⟩ (by decide)).2 ⟨1, "a", ⟨0, 5⟩, "", ""⟩ (by decide) rfl rfl⟩

/-- Helper: the datetime order is reflexive. -/
theorem tsLeB_refl (a : Timestamp) : tsLeB a a = true := by
  simp [tsLeB]

/-- Helper: the datetime order is total. -/
theorem tsLeB_total (a b : Timestamp) : tsLeB a b = true ∨ tsLeB b a = true := by
  simp only [tsLeB, Bool.or_eq_true, Bool.and_eq_true, decide_eq_true_eq]
  omega

/-- Helper: the datetime order is transitive. -/
theorem tsLeB_trans {a b c : Timestamp} (h1 : tsLeB a b = true) (h2 : tsLeB b c = true) :
    tsLeB a c = true := by
  simp only [tsLeB, Bool.or_eq_true, Bool.and_eq_true, decide_eq_true_eq] at h1 h2 ⊢
  omega

/-- Helper: an earlier instant has an earlier-or-equal month
(`to_period('M')` is monotone). -/
theorem tsLeB_month_le {a b : Timestamp} (h : tsLeB a b = true) : a.month ≤ b.month := by
  simp only [tsLeB, Bool.or_eq_true, Bool.and_eq_true, decide_eq_true_eq] at h
  omega

/-- Helper: the binary minimum is below its left argument. -/
theorem tsMin_le_left (a b : Timestamp) : tsLeB (tsMin a b) a = true := by
  unfold tsMin
  split
  · exact tsLeB_refl a
  · rename_i h
    rcases tsLeB_total a b with h' | h'
    · exact absurd h' h
    · exact h'

/-- Helper: the binary minimum is below its right argument. -/
theorem tsMin_le_right (a b : Timestamp) : tsLeB (tsMin a b) b = true := by
  unfold tsMin
  split
  · rename_i h
    exact h
  · exact tsLeB_refl b

/-- Helper: the binary minimum is one of its arguments. -/
theorem tsMin_eq_or (a b : Timestamp) : tsMin a b = a ∨ tsMin a b = b := by
  unfold tsMin
  split
  · exact Or.inl rfl
  · exact Or.inr rfl

/-- Helper: a running minimum is the seed or one of the list's elements. -/
theorem foldl_tsMin_mem :
    ∀ (l : List Timestamp) (a : Timestamp), l.foldl tsMin a = a ∨ l.foldl tsMin a ∈ l := by
  intro l
  induction l with
  | nil =>
    intro a
    exact Or.inl rfl
  | cons t ts ih =>
    intro a
    simp only [List.foldl_cons]
    rcases ih (tsMin a t) with h | h
    · rw [h]
      rcases tsMin_eq_or a t with h2 | h2
      · exact Or.inl h2
      · exact Or.inr (by rw [h2]; exact List.mem_cons_self _ _)
    · exact Or.inr (List.mem_cons_of_mem _ h)

/-- Helper: a running minimum is below the seed and every element. -/
theorem foldl_tsMin_le :
    ∀ (l : List Timestamp) (a : Timestamp),
      tsLeB (l.foldl tsMin a) a = true ∧ ∀ x ∈ l, tsLeB (l.foldl tsMin a) x = true := by
  intro l
  induction l with
  | nil =>
    intro a
    exact ⟨tsLeB_refl a, by simp⟩
  | cons t ts ih =>
    intro a
    obtain ⟨h1, h2⟩ := ih (tsMin a t)
    have hma : tsLeB (ts.foldl tsMin (tsMin a t)) a = true :=
      tsLeB_trans h1 (tsMin_le_left a t)
    have hmt : tsLeB (ts.foldl tsMin (tsMin a t)) t = true :=
      tsLeB_trans h1 (tsMin_le_right a t)
    refine ⟨by simpa [List.foldl_cons] using hma, ?_⟩
    intro x hx
    simp only [List.foldl_cons]
    rcases List.mem_cons.mp hx with rfl | hx'
    · exact hmt
    · exact h2 x hx'

/-- Helper: the minimum of a timestamp list is an element and below every
element. -/
theorem minTsList_spec (l : List Timestamp) (t : Timestamp) (h : minTsList l = some t) :
    t ∈ l ∧ ∀ x ∈ l, tsLeB t x = true := by
  cases l with
  | nil => simp [minTsList] at h
  | cons t0 ts =>
    simp only [minTsList, Option.some.injEq] at h
    subst h
    obtain ⟨h1, h2⟩ := foldl_tsMin_le ts t0
    constructor
    · rcases foldl_tsMin_mem ts t0 with h | h
      · rw [h]
        exact List.mem_cons_self _ _
      · exact List.mem_cons_of_mem _ h
    · intro x hx
      rcases List.mem_cons.mp hx with rfl | hx'
      · exact h1
      · exact h2 x hx'

/-- Helper: membership in one user's record group. -/
theorem mem_userRows (data : List Row) (u : Nat) (r : Row) :
    r ∈ userRows data u ↔ r ∈ data ∧ r.user = u := by
  simp [userRows, List.mem_filter]

/-- Helper: a user that appears in the table has a cohort month. -/
theorem cohortPeriodOf_exists (data : List Row) (r : Row) (hr : r ∈ data) :
    ∃ c, cohortPeriodOf data r.user = some c := by
  have hmem : r.ts ∈ (userRows data r.user).map Row.ts :=
    List.mem_map_of_mem Row.ts ((mem_userRows data r.user r).mpr ⟨hr, rfl⟩)
  cases hl : (userRows data r.user).map Row.ts with
  | nil =>
    rw [hl] at hmem
    simp at hmem
  | cons t ts =>
    exact ⟨(ts.foldl tsMin t).month, by simp [cohortPeriodOf, hl, minTsList]⟩

/-- Helper: the cohort month is below the month of every record of the
user (the cohort month comes from the minimum timestamp). -/
theorem cohortPeriodOf_le (data : List Row) (u : Nat) (c : Nat)
    (hc : cohortPeriodOf data u = some c) :
    ∀ r ∈ userRows data u, c ≤ r.ts.month := by
  intro r hr
  simp only [cohortPeriodOf, Option.map_eq_some'] at hc
  obtain ⟨t, ht, rfl⟩ := hc
  have hspec := minTsList_spec _ t ht
  exact tsLeB_month_le (hspec.2 r.ts (List.mem_map_of_mem Row.ts hr))

/-- Helper: the record attaining the minimum timestamp lies in the data,
belongs to the user, is dated in the cohort month and has period number 0. -/
theorem cohortPeriodOf_witness_row (data : List Row) (u : Nat) (c : Nat)
    (hc : cohortPeriodOf data u = some c) :
    ∃ r0 ∈ data, r0.user = u ∧ r0.ts.month = c ∧ periodNum data r0 = some 0 := by
  have hc' := hc
  simp only [cohortPeriodOf, Option.map_eq_some'] at hc'
  obtain ⟨t, ht, hm⟩ := hc'
  have hspec := minTsList_spec _ t ht
  obtain ⟨r0, hr0, hr0t⟩ := List.mem_map.mp hspec.1
  obtain ⟨hr0d, hr0u⟩ := (mem_userRows data u r0).mp hr0
  have hms : r0.ts.month = c := by rw [hr0t, hm]
  refine ⟨r0, hr0d, hr0u, hms, ?_⟩
  have hcc : cohortPeriodOf data r0.user = some c := by rw [hr0u]; exact hc
  simp [periodNum, hcc, hms]

/-- Helper: membership in one cell's distinct-user set. -/
theorem mem_cohortUsersAt (data : List Row) (c : Nat) (p : Int) (u : Nat) :
    u ∈ cohortUsersAt data c p ↔
      ∃ r ∈ data, r.user = u ∧ cohortPeriodOf data u = some c ∧
        periodNum data r = some p := by
  simp only [cohortUsersAt, List.mem_toFinset, List.mem_map, List.mem_filter,
    Bool.and_eq_true, beq_iff_eq]
  constructor
  · rintro ⟨r, ⟨hr, hcc, hpp⟩, hu⟩
    exact ⟨r, hr, hu, by rw [← hu]; exact hcc, hpp⟩
  · rintro ⟨r, hr, hu, hcc, hpp⟩
    exact ⟨r, ⟨hr, by rw [hu]; exact hcc, hpp⟩, hu⟩

/-- Helper: every user of a cohort is counted in that cohort's period-0
cell. -/
theorem mem_cohortUsersAt_zero (data : List Row) (u : Nat) (c : Nat)
    (hc : cohortPeriodOf data u = some c) : u ∈ cohortUsersAt data c 0 := by
  obtain ⟨r0, hr0, hu, _, hp⟩ := cohortPeriodOf_witness_row data u c hc
  exact (mem_cohortUsersAt data c 0 u).mpr ⟨r0, hr0, hu, hc, hp⟩

/-- Helper: every cell's user set is contained in its row's period-0 set. -/
theorem cohortUsersAt_subset_zero (data : List Row) (c : Nat) (p : Int) :
    cohortUsersAt data c p ⊆ cohortUsersAt data c 0 := by
  intro u hu
  obtain ⟨r, hr, hru, hcc, hpp⟩ := (mem_cohortUsersAt data c p u).mp hu
  exact mem_cohortUsersAt_zero data u c hcc

/-- C5.  For every cohort month that occurs in the table (every row of the
pivoted output), the retention value at period 0 equals 1. -/
theorem c5_retention_at_period_zero (data : List Row) (c : Nat)
    (h : ∃ r ∈ data, cohortPeriodOf data r.user = some c) :
    retentionCell data c 0 = 1 := by
  obtain ⟨r, hr, hc⟩ := h
  have hmem : r.user ∈ cohortUsersAt data c 0 := mem_cohortUsersAt_zero data r.user c hc
  have hpos : 0 < cohortCell data c 0 := Finset.card_pos.mpr ⟨r.user, hmem⟩
  unfold retentionCell cohort_sizes
  exact div_self (by exact_mod_cast hpos.ne')

/-- C5 witness: one user, one event; cohort month 0 has retention 1 at
period 0. -/
theorem c5_retention_at_period_zero_witness :
    retentionCell [⟨1, "a", ⟨0, 0⟩, "", ""⟩] 0 0 = 1 :=
  c5_retention_at_period_zero [⟨1, "a", ⟨0, 0⟩, "", ""⟩] 0
    ⟨⟨1, "a", ⟨0, 0⟩, "", ""⟩, by decide, by decide⟩

/-- C6.  Every populated cell of the retention table equals the cohort cell
divided by the row's period-0 value, and lies in `[0, 1]`. -/
theorem c6_retention_normalized (data : List Row) (c : Nat) (p : Int)
    (h : cohortCell data c p ≠ 0) :
    retentionCell data c p = (cohortCell data c p : ℚ) / (cohortCell data c 0 : ℚ) ∧
      0 ≤ retentionCell data c p ∧ retentionCell data c p ≤ 1 := by
  have hle : cohortCell data c p ≤ cohortCell data c 0 :=
    Finset.card_le_card (cohortUsersAt_subset_zero data c p)
  have hpos : 0 < cohortCell data c 0 := by omega
  refine ⟨rfl, ?_, ?_⟩
  · unfold retentionCell
    positivity
  · unfold retentionCell cohort_sizes
    rw [div_le_one (by exact_mod_cast hpos)]
    exact_mod_cast hle

/-- C6 witness: the period-0 cell of the one-user log is populated and its
retention value is 1, within bounds. -/
theorem c6_retention_normalized_witness :
    cohortCell [⟨1, "a", ⟨0, 0⟩, "", ""⟩] 0 0 ≠ 0 ∧
      (retentionCell [⟨1, "a", ⟨0, 0⟩, "", ""⟩] 0 0 =
          (cohortCell [⟨1, "a", ⟨0, 0⟩, "", ""⟩] 0 0 : ℚ) /
            (cohortCell [⟨1, "a", ⟨0, 0⟩, "", ""⟩] 0 0 : ℚ) ∧
        0 ≤ retentionCell [⟨1, "a", ⟨0, 0⟩, "", ""⟩] 0 0 ∧
        retentionCell [⟨1, "a", ⟨0, 0⟩, "", ""⟩] 0 0 ≤ 1) :=
  ⟨by decide, c6_retention_normalized [⟨1, "a", ⟨0, 0⟩, "", ""⟩] 0 0 (by decide)⟩

/-- C7.  For every record of the table, the period number is defined, equals
the event month minus the user's cohort month, is non-negative, and is zero
exactly for events dated in the user's cohort month. -/
theorem c7_period_number_nonneg (data : List Row) (r : Row) (c : Nat)
    (hr : r ∈ data) (hc : cohortPeriodOf data r.user = some c) :
    periodNum data r = some ((r.ts.month : Int) - (c : Int)) ∧
      0 ≤ (r.ts.month : Int) - (c : Int) ∧
      ((r.ts.month : Int) - (c : Int) = 0 ↔ r.ts.month = c) := by
  refine ⟨by simp [periodNum, hc], ?_, by omega⟩
  have hle := cohortPeriodOf_le data r.user c hc r ((mem_userRows data r.user r).mpr ⟨hr, rfl⟩)
  omega

/-- C7 witness: user 1's cohort month is 0; the event in month 2 has period
number 2 ≥ 0. -/
theorem c7_period_number_nonneg_witness :
    periodNum [⟨1, "a", ⟨0, 0⟩, "", ""⟩, ⟨1, "b", ⟨2, 7⟩, "", ""⟩] ⟨1, "b", ⟨2, 7⟩, "", ""⟩ =
        some ((2 : Int) - (0 : Int)) ∧
      0 ≤ (2 : Int) - (0 : Int) :=
  ⟨(c7_period_number_nonneg [⟨1, "a", ⟨0, 0⟩, "", ""⟩, ⟨1, "b", ⟨2, 7⟩, "", ""⟩]
      ⟨1, "b", ⟨2, 7⟩, "", ""⟩ 0 (by decide) (by decide)).1,
    (c7_period_number_nonneg [⟨1, "a", ⟨0, 0⟩, "", ""⟩, ⟨1, "b", ⟨2, 7⟩, "", ""⟩]
      ⟨1, "b", ⟨2, 7⟩, "", ""⟩ 0 (by decide) (by decide)).2.1⟩

/-- C9.  Every user of the table has exactly one cohort month, is counted in
that cohort's period-0 cell, and the cohort sizes over all cohort rows sum
to the number of distinct users of the table. -/
theorem c9_cohorts_partition_users (data : List Row) :
    (∀ r ∈ data, ∃ c, cohortPeriodOf data r.user = some c ∧
        (∀ c', cohortPeriodOf data r.user = some c' → c' = c) ∧
        r.user ∈ cohortUsersAt data c 0) ∧
      ∑ c ∈ cohortMonths data, cohortCell data c 0 = (allUsers data).card := by
  constructor
  · intro r hr
    obtain ⟨c, hc⟩ := cohortPeriodOf_exists data r hr
    exact ⟨c, hc, fun c' hc' => (Option.some.inj (hc.symm.trans hc')).symm,
      mem_cohortUsersAt_zero data r.user c hc⟩
  · have h1 : ∀ u ∈ allUsers data,
        cohortPeriodOf data u = some ((cohortPeriodOf data u).getD 0) := by
      intro u hu
      simp only [allUsers, List.mem_toFinset, List.mem_map] at hu
      obtain ⟨r, hr, rfl⟩ := hu
      obtain ⟨c, hc⟩ := cohortPeriodOf_exists data r hr
      rw [hc]
      rfl
    have h2 : ∀ u ∈ allUsers data, (cohortPeriodOf data u).getD 0 ∈ cohortMonths data := by
      intro u hu
      have hc := h1 u hu
      simp only [allUsers, List.mem_toFinset, List.mem_map] at hu
      obtain ⟨r, hr, rfl⟩ := hu
      simp only [cohortMonths, List.mem_toFinset, List.mem_filterMap]
      exact ⟨r, hr, hc⟩
    have h3 : ∀ c, cohortUsersAt data c 0 =
        (allUsers data).filter fun u => (cohortPeriodOf data u).getD 0 = c := by
      intro c
      ext u
      rw [Finset.mem_filter, mem_cohortUsersAt]
      constructor
      · rintro ⟨r, hr, hru, hcc, hpp⟩
        refine ⟨?_, by rw [hcc]; rfl⟩
        simp only [allUsers, List.mem_toFinset, List.mem_map]
        exact ⟨r, hr, hru⟩
      · rintro ⟨hu, hg⟩
        have hc := h1 u hu
        rw [hg] at hc
        obtain ⟨r0, hr0, hu0, _, hp0⟩ := cohortPeriodOf_witness_row data u c hc
        exact ⟨r0, hr0, hu0, hc, hp0⟩
    calc ∑ c ∈ cohortMonths data, cohortCell data c 0
        = ∑ c ∈ cohortMonths data,
            ((allUsers data).filter fun u => (cohortPeriodOf data u).getD 0 = c).card := by
          refine Finset.sum_congr rfl fun c _ => ?_
          rw [cohortCell, h3 c]
      _ = (allUsers data).card := (Finset.card_eq_sum_card_fiberwise h2).symm

/-- C9 witness: two users in different cohort months; user 1 is in cohort 0
at period 0 and the cohort sizes sum to the 2 distinct users. -/
theorem c9_cohorts_partition_users_witness :
    (∃ c, cohortPeriodOf [⟨1, "a", ⟨0, 0⟩, "", ""⟩, ⟨2, "b", ⟨1, 4⟩, "", ""⟩] 1 = some c ∧
        (∀ c', cohortPeriodOf [⟨1, "a", ⟨0, 0⟩, "", ""⟩, ⟨2, "b", ⟨1, 4⟩, "", ""⟩] 1 =
          some c' → c' = c) ∧
        (1 : Nat) ∈ cohortUsersAt [⟨1, "a", ⟨0, 0⟩, "", ""⟩, ⟨2, "b", ⟨1, 4⟩, "", ""⟩] c 0) ∧
      ∑ c ∈ cohortMonths [⟨1, "a", ⟨0, 0⟩, "", ""⟩, ⟨2, "b", ⟨1, 4⟩, "", ""⟩],
          cohortCell [⟨1, "a", ⟨0, 0⟩, "", ""⟩, ⟨2, "b", ⟨1, 4⟩, "", ""⟩] c 0 =
        (allUsers [⟨1, "a", ⟨0, 0⟩, "", ""⟩, ⟨2, "b", ⟨1, 4⟩, "", ""⟩]).card :=
  ⟨(c9_cohorts_partition_users [⟨1, "a", ⟨0, 0⟩, "", ""⟩, ⟨2, "b", ⟨1, 4⟩, "", ""⟩]).1
      ⟨1, "a", ⟨0, 0⟩, "", ""⟩ (by decide),
    (c9_cohorts_partition_users [⟨1, "a", ⟨0, 0⟩, "", ""⟩, ⟨2, "b", ⟨1, 4⟩, "", ""⟩]).2⟩
